import Mathlib

/-!
Shallow embedding of the traildb-rs binding (src/lib.rs) together with a
model of the underlying TrailDB core.  The Rust crate is a thin wrapper
over the `ffi` module (the TrailDB C library), which is not part of the
crate's sources; wherever a definition models that missing core its doc
comment starts with "Modelled from the spec:".  Definitions that mirror
Rust code present in src/lib.rs say so.
-/

namespace TrailDB

/-- Byte strings, as passed to `Constructor::add` and returned by value
lookups.  Mirrors Rust `&str`/byte-slice data. -/
abbrev ByteStr := List Nat

/-- Mirrors the Rust type alias `pub type Uuid = [u8; 16]` (the 16-byte
bound is irrelevant to the claims, so bytes are kept as a list). -/
abbrev Uuid := List Nat

/-- Mirrors `pub type Timestamp = u64`. -/
abbrev Timestamp := Nat

/-- Mirrors `pub type TrailId = u64`. -/
abbrev TrailId := Nat

/-- Mirrors the Rust `enum Error` of src/lib.rs (all variants kept). -/
inductive Error where
  | Nomem
  | PathTooLong
  | UnknownField
  | UnknownUuid
  | InvalidTrailId
  | HandleIsNull
  | HandleAlreadyOpened
  | UnknownOption
  | InvalidOptionValue
  | InvalidUuid
  | IoOpen
  | IoClose
  | IoWrite
  | IoRead
  | IoTruncate
  | IoPackage
  | InvalidInfoFile
  | InvalidVersionFile
  | IncompatibleVersion
  | InvalidFieldsFile
  | InvalidUuidsFile
  | InvalidCodebookFile
  | InvalidTrailsFile
  | InvalidLexiconFile
  | InvalidPackage
  | TooManyFields
  | DuplicateFields
  | InvalidFieldname
  | TooManyTrails
  | ValueTooLong
  | AppendFieldsMismatch
  | LexiconTooLarge
  | TimestampTooLarge
  | TrailTooLong
  | OnlyDiffFilter
  deriving DecidableEq

/-- Mirrors the Rust `struct Item(pub u64)`: the spec (4.1) says an Item
packs a field id and a value id into one integer; we keep the two
components explicit. -/
structure Item where
  fieldId : Nat
  valueId : Nat
  deriving DecidableEq

/-- One `(uuid, timestamp, values)` tuple as passed to a successful
`Constructor::add` call. -/
structure Tup where
  uuid : Uuid
  ts : Timestamp
  vals : List ByteStr
  deriving DecidableEq

/-- Modelled from the spec: the Constructor accumulates the added tuples
in order; `finalized` records that the terminal `finalize` ran (after
which the spec says the handle is spent). -/
structure Cons where
  fields : List String
  tuples : List Tup
  finalized : Bool
  deriving DecidableEq

/-- Modelled from the spec: "Finalization is a pure function of the
accumulated tuples", so a finalized-and-reopened Db is represented by
its field schema and the construction sequence itself; every accessor
below is computed from these. -/
structure Db where
  fields : List String
  tuples : List Tup
  deriving DecidableEq

/-- A decoded event: mirrors the Rust `struct Event` (timestamp plus the
items slice the cursor exposes, one item per user field). -/
structure Event where
  timestamp : Timestamp
  items : List Item
  deriving DecidableEq

/-- Helper for first-occurrence deduplication: keeps elements not yet
seen, in order, threading the set of already-seen elements. -/
def dedupGo [DecidableEq α] (seen : List α) : List α → List α
  | [] => []
  | x :: xs => if x ∈ seen then dedupGo seen xs else x :: dedupGo (x :: seen) xs

/-- First-occurrence deduplication: keeps each element's first occurrence,
in order.  Used to model the dense TrailId assignment ("a dense 0-based
ordinal assigned to each distinct Uuid in insertion order") and the
per-field lexicon interning order. -/
def dedupFO [DecidableEq α] (l : List α) : List α := dedupGo [] l

/-- Index of the first occurrence of an element, if present.  Models the
uuid-table reverse lookup and lexicon interning. -/
def idxOf [DecidableEq α] (a : α) : List α → Option Nat
  | [] => none
  | x :: xs => if x = a then some 0 else (idxOf a xs).map (· + 1)

theorem mem_dedupGo [DecidableEq α] (a : α) (l : List α) :
    ∀ seen, a ∈ dedupGo seen l ↔ a ∈ l ∧ a ∉ seen := by
  induction l with
  | nil => intro seen; simp [dedupGo]
  | cons x xs ih =>
    intro seen
    rw [dedupGo]
    by_cases hx : x ∈ seen
    · rw [if_pos hx, ih seen]
      constructor
      · rintro ⟨h1, h2⟩
        exact ⟨List.mem_cons.mpr (Or.inr h1), h2⟩
      · rintro ⟨h1, h2⟩
        rcases List.mem_cons.mp h1 with h3 | h3
        · exact absurd (h3 ▸ hx) h2
        · exact ⟨h3, h2⟩
    · rw [if_neg hx]
      by_cases hax : a = x
      · subst hax
        simp [hx]
      · simp only [List.mem_cons, hax, false_or, ih (x :: seen)]

theorem nodup_dedupGo [DecidableEq α] (l : List α) :
    ∀ seen, (dedupGo seen l).Nodup := by
  induction l with
  | nil => intro seen; simp [dedupGo]
  | cons x xs ih =>
    intro seen
    rw [dedupGo]
    by_cases hx : x ∈ seen
    · rw [if_pos hx]
      exact ih seen
    · rw [if_neg hx]
      refine List.nodup_cons.mpr ⟨fun hm => ?_, ih (x :: seen)⟩
      exact ((mem_dedupGo x xs (x :: seen)).mp hm).2 (List.mem_cons.mpr (Or.inl rfl))

theorem mem_dedupFO [DecidableEq α] (a : α) (l : List α) :
    a ∈ dedupFO l ↔ a ∈ l := by
  rw [dedupFO, mem_dedupGo a l []]
  simp

theorem nodup_dedupFO [DecidableEq α] (l : List α) : (dedupFO l).Nodup :=
  nodup_dedupGo l []

theorem idxOf_eq_none [DecidableEq α] (a : α) (l : List α) (h : a ∉ l) :
    idxOf a l = none := by
  induction l with
  | nil => rfl
  | cons x xs ih =>
    simp only [List.mem_cons, not_or] at h
    rw [idxOf, if_neg (fun hx => h.1 hx.symm), ih h.2]
    rfl

theorem idxOf_mem [DecidableEq α] (a : α) (l : List α) (h : a ∈ l) :
    ∃ i, idxOf a l = some i ∧ l.get? i = some a := by
  induction l with
  | nil => cases h
  | cons x xs ih =>
    by_cases hx : x = a
    · exact ⟨0, by rw [idxOf, if_pos hx], by simp [hx]⟩
    · have ha : a ∈ xs := by
        rcases List.mem_cons.mp h with h1 | h1
        · exact absurd h1.symm hx
        · exact h1
      obtain ⟨i, hi, hg⟩ := ih ha
      exact ⟨i + 1, by rw [idxOf, if_neg hx, hi]; rfl, by simpa using hg⟩

theorem idxOf_of_nodup_get? [DecidableEq α] (l : List α) (hnd : l.Nodup)
    (i : Nat) (a : α) (h : l.get? i = some a) : idxOf a l = some i := by
  induction l generalizing i with
  | nil => simp at h
  | cons x xs ih =>
    rcases List.nodup_cons.mp hnd with ⟨hx, hnd'⟩
    cases i with
    | zero =>
      simp only [List.get?] at h
      injection h with h
      rw [idxOf, if_pos h]
    | succ j =>
      simp only [List.get?] at h
      have hax : x ≠ a := by
        intro he
        exact hx (he ▸ List.get?_mem h)
      rw [idxOf, if_neg hax, ih hnd' j h]
      rfl

/-! ## Constructor operations -/

/-- Mirrors `Constructor::new` (the in-memory part: `tdb_cons_open` with
the given field names; path handling is modelled separately below). -/
def Cons.new (fields : List String) : Cons := ⟨fields, [], false⟩

/-- Modelled from the spec: `tdb_cons_add` behind `Constructor::add`
appends the tuple to the accumulated sequence; after finalize the
Constructor is spent and further add is a HandleAlreadyOpened-class
error. -/
def Cons.add (c : Cons) (u : Uuid) (t : Timestamp) (vs : List ByteStr) :
    Except Error Cons :=
  if c.finalized then .error .HandleAlreadyOpened
  else .ok { c with tuples := c.tuples ++ [⟨u, t, vs⟩] }

/-- Modelled from the spec: `tdb_cons_finalize` behind
`Constructor::finalize` freezes the accumulated tuples into the
immutable Db (finalization is a pure function of the tuples); the
returned pair is the spent Constructor and the Db that `Db::open` on the
same path yields. -/
def Cons.finalize (c : Cons) : Except Error (Cons × Db) :=
  if c.finalized then .error .HandleAlreadyOpened
  else .ok ({ c with finalized := true }, ⟨c.fields, c.tuples⟩)

/-- Runs a sequence of `Constructor::add` calls, stopping at the first
error (each call in the claims is assumed successful). -/
def runAdds (c : Cons) : List Tup → Except Error Cons
  | [] => .ok c
  | t :: ts =>
    match c.add t.uuid t.ts t.vals with
    | .ok c2 => runAdds c2 ts
    | .error e => .error e

/-! ## Db accessors -/

/-- Modelled from the spec: the uuid table is TrailId-ordered, TrailIds
being dense 0-based ordinals assigned to each distinct Uuid in insertion
order. -/
def uuidTable (db : Db) : List Uuid := dedupFO (db.tuples.map Tup.uuid)

/-- Mirrors `Db::num_trails` (value computed at finalize per the spec). -/
def Db.num_trails (db : Db) : Nat := (uuidTable db).length

/-- Mirrors `Db::num_events` (total added tuples per the spec). -/
def Db.num_events (db : Db) : Nat := db.tuples.length

/-- Mirrors `Db::num_fields`: k user fields plus the reserved field 0. -/
def Db.num_fields (db : Db) : Nat := db.fields.length + 1

/-- Modelled from the spec: min over all added timestamps (0 when the
database is empty). -/
def Db.min_timestamp (db : Db) : Timestamp :=
  match db.tuples.map Tup.ts with
  | [] => 0
  | t :: rest => rest.foldl min t

/-- Modelled from the spec: max over all added timestamps (0 when the
database is empty). -/
def Db.max_timestamp (db : Db) : Timestamp :=
  match db.tuples.map Tup.ts with
  | [] => 0
  | t :: rest => rest.foldl max t

/-- Mirrors `Db::get_trail_id`: reverse lookup over the uuid table;
the Rust wrapper turns any non-OK ffi code into `None`. -/
def Db.get_trail_id (db : Db) (u : Uuid) : Option TrailId :=
  idxOf u (uuidTable db)

/-- Mirrors `Db::get_uuid`: direct indexed lookup in the uuid table; the
wrapper turns the NULL pointer (out of range) into `None`. -/
def Db.get_uuid (db : Db) (tid : TrailId) : Option Uuid :=
  (uuidTable db).get? tid

/-! ## Lexicon / item codec -/

/-- Modelled from the spec: the per-field lexicon interns each distinct
byte string in first-occurrence order, dedupes by byte equality and
never reassigns an id. -/
def lexiconF (ts : List Tup) (f : Nat) : List ByteStr :=
  dedupFO (ts.map (fun t => t.vals.getD f []))

/-- Modelled from the spec: `intern(field, value) -> value_id`; total
with default 0, used below only on values present in the lexicon. -/
def internId (ts : List Tup) (f : Nat) (v : ByteStr) : Nat :=
  (idxOf v (lexiconF ts f)).getD 0

/-- Modelled from the spec: each event slot stores an Item packing the
field id (user field i is field i+1, field 0 being the reserved time
field) with the interned value id. -/
def encodeItems (ts : List Tup) : Nat → List ByteStr → List Item
  | _, [] => []
  | i, v :: vs => ⟨i + 1, internId ts i v⟩ :: encodeItems ts (i + 1) vs

/-- Modelled from the spec: the decoded Event for one added tuple. -/
def encodeEvent (ts : List Tup) (t : Tup) : Event :=
  ⟨t.ts, encodeItems ts 0 t.vals⟩

/-- Modelled from the spec: a trail is the ordered sequence of events of
one TrailId's Uuid, in insertion order; `none` when the TrailId is out
of range. -/
def Db.trailEvents (db : Db) (tid : TrailId) : Option (List Event) :=
  ((uuidTable db).get? tid).map
    (fun u => ((db.tuples.filter (fun t => t.uuid = u)).map (encodeEvent db.tuples)))

/-- Modelled from the spec: `resolve(field, value_id)` through the
lexicon; the codec rejects (NULL at the ffi boundary, here `none`) an
item whose field component is the reserved field 0, out of the declared
range, or whose value id is not in the field's lexicon. -/
def resolveItem (db : Db) (it : Item) : Option ByteStr :=
  if it.fieldId = 0 ∨ db.num_fields ≤ it.fieldId then none
  else (lexiconF db.tuples (it.fieldId - 1)).get? it.valueId

/-- Mirrors `Db::get_item_value`: the wrapper builds a `&str` from the
returned pointer and length with no error channel, so the NULL/0 answer
for an unresolvable item becomes the empty string. -/
def Db.get_item_value (db : Db) (it : Item) : ByteStr :=
  (resolveItem db it).getD []

/-- Mirrors `Db::get_field_name` (Option-valued); the name table is the
reserved time field followed by the declared user fields, out-of-range
fields resolving to `none`. -/
def Db.get_field_name (db : Db) (f : Nat) : Option String :=
  if f = 0 then some "time" else db.fields.get? (f - 1)

/-! ## Cursor and iterators -/

/-- Cursor state: the Db it reads, the bound trail's decoded events
(`none` while unbound) and the iteration position.  Modelled from the
spec's Unbound/Bound/Exhausted state machine. -/
structure Cursor where
  db : Db
  bound : Option (List Event)
  pos : Nat
  deriving DecidableEq

/-- Mirrors `Db::cursor`: a fresh, unbound cursor. -/
def Db.cursor (db : Db) : Cursor := ⟨db, none, 0⟩

/-- Mirrors `Cursor::get_trail` over the modelled `tdb_get_trail`:
binding to a valid TrailId positions at the trail's first event;
binding to a nonexistent TrailId fails InvalidTrailId. -/
def Cursor.get_trail (c : Cursor) (tid : TrailId) : Except Error Cursor :=
  match c.db.trailEvents tid with
  | some evs => .ok ⟨c.db, some evs, 0⟩
  | none => .error .InvalidTrailId

/-- Mirrors `Cursor::len` over the modelled `tdb_get_trail_length`: the
bound trail's total event count, per the spec read from the trail
header without consuming the sequence. -/
def Cursor.len (c : Cursor) : Nat := (c.bound.getD []).length

/-- Mirrors `Cursor::next`: decodes the next event or yields `none` once
the bound trail is exhausted (or the cursor is unbound). -/
def Cursor.next (c : Cursor) : Option Event × Cursor :=
  match c.bound with
  | none => (none, c)
  | some evs =>
    match evs.get? c.pos with
    | some ev => (some ev, { c with pos := c.pos + 1 })
    | none => (none, c)

/-- Repeatedly calls `Cursor.next`, collecting the yielded events until
the first `none` (or until the fuel runs out). -/
def Cursor.runNext : Cursor → Nat → List Event
  | _, 0 => []
  | c, n + 1 =>
    match c.next with
    | (some ev, c2) => ev :: c2.runNext n
    | (none, _) => []

/-- Mirrors `DbIter::next` from src/lib.rs: take the current position as
the trail id, advance the position, open a fresh cursor, bind it; an
`Err` from the bind ends iteration with `None`. -/
def dbIterNext (db : Db) (pos : Nat) : Option (TrailId × Cursor) × Nat :=
  match (db.cursor).get_trail pos with
  | .ok c => (some (pos, c), pos + 1)
  | .error _ => (none, pos + 1)

/-- The trail ids yielded by repeatedly calling `dbIterNext`, until the
first `none` (or until the fuel runs out). -/
def dbIterIds (db : Db) : Nat → Nat → List TrailId
  | _, 0 => []
  | pos, n + 1 =>
    match dbIterNext db pos with
    | (some (id, _), p2) => id :: dbIterIds db p2 n
    | (none, _) => []

/-! ## Path handling (src/lib.rs `path_cstr`) -/

/-- Outcome of Rust code that may panic. -/
inductive PanicOr (α : Type) where
  | panicked : String → PanicOr α
  | ok : α → PanicOr α
  deriving DecidableEq

/-- Mirrors Rust `Option::unwrap`: panics on `None`. -/
def rustUnwrap : Option α → PanicOr α
  | none => .panicked "called Option::unwrap on a None value"
  | some v => .ok v

/-- Mirrors `CString::new`: fails when the bytes contain a NUL byte. -/
def cStringNew (s : List Nat) : Option (List Nat) :=
  if 0 ∈ s then none else some s

/-- Mirrors `path_cstr` from src/lib.rs:
`CString::new(path.to_str().unwrap()).unwrap()`.  The argument is the
result of `Path::to_str()`: `none` when the path is not valid UTF-8. -/
def path_cstr (toStr : Option (List Nat)) : PanicOr (List Nat) :=
  match rustUnwrap toStr with
  | .panicked m => .panicked m
  | .ok s => rustUnwrap (cStringNew s)

/-- Mirrors `Constructor::new`'s use of `path_cstr`: the path is
converted before any ffi call can return an error, so a bad path panics
and no `Err` value is ever produced. -/
def constructorNewOp (toStr : Option (List Nat)) (fields : List String) :
    PanicOr (Except Error Cons) :=
  match path_cstr toStr with
  | .panicked m => .panicked m
  | .ok _ => .ok (.ok (Cons.new fields))

/-- Mirrors `Db::open`'s use of `path_cstr` (the db found at the path is
a parameter, open itself being I/O): a bad path panics before any
`Err` can be returned. -/
def dbOpenOp (toStr : Option (List Nat)) (db : Db) :
    PanicOr (Except Error Db) :=
  match path_cstr toStr with
  | .panicked m => .panicked m
  | .ok _ => .ok (.ok db)

/-! ## Pipeline lemmas -/

theorem runAdds_not_finalized (ts : List Tup) :
    ∀ c0 : Cons, c0.finalized = false →
      runAdds c0 ts = .ok ⟨c0.fields, c0.tuples ++ ts, false⟩ := by
  induction ts with
  | nil =>
    intro c0 h
    cases c0 with
    | mk f tps fin =>
      simp only at h
      subst h
      simp [runAdds]
  | cons t ts ih =>
    intro c0 h
    rw [runAdds]
    unfold Cons.add
    rw [if_neg (by simp [h])]
    simp only
    rw [ih _ (by simp [h])]
    simp

theorem pipeline_shape (fs : List String) (ts : List Tup)
    (c c' : Cons) (db : Db)
    (h1 : runAdds (Cons.new fs) ts = .ok c)
    (h2 : c.finalize = .ok (c', db)) :
    c = ⟨fs, ts, false⟩ ∧ c' = ⟨fs, ts, true⟩ ∧ db = ⟨fs, ts⟩ := by
  rw [runAdds_not_finalized ts (Cons.new fs) rfl] at h1
  simp only [Cons.new, List.nil_append] at h1
  injection h1 with h1
  subst h1
  unfold Cons.finalize at h2
  rw [if_neg (by simp)] at h2
  injection h2 with h2
  injection h2 with hc hd
  exact ⟨rfl, hc.symm, hd.symm⟩

/-! ## Fold extrema lemmas -/

theorem foldl_min_mem : ∀ (xs : List Nat) (x : Nat), xs.foldl min x ∈ x :: xs := by
  intro xs
  induction xs with
  | nil => intro x; simp
  | cons y ys ih =>
    intro x
    rw [List.foldl_cons]
    have h := ih (min x y)
    have h2 : min x y = x ∨ min x y = y := by omega
    rcases List.mem_cons.mp h with h1 | h1
    · rw [h1]
      rcases h2 with h3 | h3 <;> simp [h3]
    · exact List.mem_cons.mpr (Or.inr (List.mem_cons.mpr (Or.inr h1)))

theorem foldl_min_le_init : ∀ (xs : List Nat) (x : Nat), xs.foldl min x ≤ x := by
  intro xs
  induction xs with
  | nil => intro x; exact Nat.le_refl x
  | cons y ys ih =>
    intro x
    rw [List.foldl_cons]
    have := ih (min x y)
    omega

theorem foldl_min_le : ∀ (xs : List Nat) (x y : Nat), y ∈ x :: xs →
    xs.foldl min x ≤ y := by
  intro xs
  induction xs with
  | nil =>
    intro x y h
    rw [List.mem_singleton.mp h]
    exact Nat.le_refl _
  | cons z zs ih =>
    intro x y h
    rw [List.foldl_cons]
    rcases List.mem_cons.mp h with h1 | h1
    · have := foldl_min_le_init zs (min x z)
      omega
    · rcases List.mem_cons.mp h1 with h2 | h2
      · have := foldl_min_le_init zs (min x z)
        omega
      · exact ih _ y (List.mem_cons.mpr (Or.inr h2))

theorem foldl_max_mem : ∀ (xs : List Nat) (x : Nat), xs.foldl max x ∈ x :: xs := by
  intro xs
  induction xs with
  | nil => intro x; simp
  | cons y ys ih =>
    intro x
    rw [List.foldl_cons]
    have h := ih (max x y)
    have h2 : max x y = x ∨ max x y = y := by omega
    rcases List.mem_cons.mp h with h1 | h1
    · rw [h1]
      rcases h2 with h3 | h3 <;> simp [h3]
    · exact List.mem_cons.mpr (Or.inr (List.mem_cons.mpr (Or.inr h1)))

theorem foldl_le_max_init : ∀ (xs : List Nat) (x : Nat), x ≤ xs.foldl max x := by
  intro xs
  induction xs with
  | nil => intro x; exact Nat.le_refl x
  | cons y ys ih =>
    intro x
    rw [List.foldl_cons]
    have := ih (max x y)
    omega

theorem foldl_le_max : ∀ (xs : List Nat) (x y : Nat), y ∈ x :: xs →
    y ≤ xs.foldl max x := by
  intro xs
  induction xs with
  | nil =>
    intro x y h
    rw [List.mem_singleton.mp h]
    exact Nat.le_refl _
  | cons z zs ih =>
    intro x y h
    rw [List.foldl_cons]
    rcases List.mem_cons.mp h with h1 | h1
    · have := foldl_le_max_init zs (max x z)
      omega
    · rcases List.mem_cons.mp h1 with h2 | h2
      · have := foldl_le_max_init zs (max x z)
        omega
      · exact ih _ y (List.mem_cons.mpr (Or.inr h2))

theorem dedupFO_length_eq_card [DecidableEq α] (l : List α) :
    (dedupFO l).length = l.toFinset.card := by
  have h1 : (dedupFO l).toFinset = l.toFinset := by
    apply Finset.ext
    intro a
    simp [List.mem_toFinset, mem_dedupFO]
  rw [← h1, List.toFinset_card_of_nodup (nodup_dedupFO l)]

/-! ## Shared concrete example inputs -/

/-- Two user fields, as in the crate's test. -/
def exFs : List String := ["user", "action"]

/-- Three added tuples over two distinct uuids. -/
def exTs : List Tup :=
  [⟨[1], 5, [[65], [66]]⟩, ⟨[2], 3, [[65], [67]]⟩, ⟨[1], 9, [[68], [66]]⟩]

/-- The finalized example database. -/
def exDb : Db := ⟨exFs, exTs⟩

/-! ## Claim theorems -/

/-- C1: for every sequence of successful `Constructor::add` calls
followed by a successful `finalize` and `Db::open` on the same path,
`num_trails` equals the number of distinct Uuids added, `num_events`
the total number of add calls, and `min_timestamp`/`max_timestamp` the
extrema of all added timestamps. -/
theorem global_counts_after_pipeline (fs : List String) (ts : List Tup)
    (c c' : Cons) (db : Db)
    (h1 : runAdds (Cons.new fs) ts = .ok c)
    (h2 : c.finalize = .ok (c', db))
    (hne : ts ≠ []) :
    db.num_trails = (ts.map Tup.uuid).toFinset.card ∧
    db.num_events = ts.length ∧
    (db.min_timestamp ∈ ts.map Tup.ts ∧ ∀ t ∈ ts.map Tup.ts, db.min_timestamp ≤ t) ∧
    (db.max_timestamp ∈ ts.map Tup.ts ∧ ∀ t ∈ ts.map Tup.ts, t ≤ db.max_timestamp) := by
  obtain ⟨-, -, hdb⟩ := pipeline_shape fs ts c c' db h1 h2
  subst hdb
  refine ⟨dedupFO_length_eq_card _, rfl, ?_, ?_⟩
  · cases hm : ts.map Tup.ts with
    | nil => exact absurd (List.map_eq_nil_iff.mp hm) hne
    | cons t rest =>
      constructor
      · unfold Db.min_timestamp
        simp only [hm]
        exact foldl_min_mem rest t
      · intro x hx
        unfold Db.min_timestamp
        simp only [hm]
        exact foldl_min_le rest t x hx
  · cases hm : ts.map Tup.ts with
    | nil => exact absurd (List.map_eq_nil_iff.mp hm) hne
    | cons t rest =>
      constructor
      · unfold Db.max_timestamp
        simp only [hm]
        exact foldl_max_mem rest t
      · intro x hx
        unfold Db.max_timestamp
        simp only [hm]
        exact foldl_le_max rest t x hx

/-- Witness for C1 at a concrete construction sequence. -/
theorem global_counts_after_pipeline_witness :
    Db.num_trails exDb = (exTs.map Tup.uuid).toFinset.card ∧
    Db.num_events exDb = exTs.length ∧
    (Db.min_timestamp exDb ∈ exTs.map Tup.ts ∧
      ∀ t ∈ exTs.map Tup.ts, Db.min_timestamp exDb ≤ t) ∧
    (Db.max_timestamp exDb ∈ exTs.map Tup.ts ∧
      ∀ t ∈ exTs.map Tup.ts, t ≤ Db.max_timestamp exDb) :=
  global_counts_after_pipeline exFs exTs ⟨exFs, exTs, false⟩ ⟨exFs, exTs, true⟩
    exDb rfl rfl (by decide)

/-- C2: every added Uuid resolves through `get_trail_id` to a TrailId
from which `get_uuid` returns the original Uuid, and conversely every
`get_uuid` answer maps back to its TrailId: Uuid and TrailId are in
bijection over the finalized database. -/
theorem uuid_trailid_roundtrip (fs : List String) (ts : List Tup)
    (c c' : Cons) (db : Db)
    (h1 : runAdds (Cons.new fs) ts = .ok c)
    (h2 : c.finalize = .ok (c', db)) :
    (∀ u ∈ ts.map Tup.uuid,
      ∃ tid, db.get_trail_id u = some tid ∧ db.get_uuid tid = some u) ∧
    (∀ tid u, db.get_uuid tid = some u → db.get_trail_id u = some tid) := by
  obtain ⟨-, -, hdb⟩ := pipeline_shape fs ts c c' db h1 h2
  subst hdb
  constructor
  · intro u hu
    have hmem : u ∈ uuidTable ⟨fs, ts⟩ := (mem_dedupFO u _).mpr hu
    obtain ⟨i, hi, hg⟩ := idxOf_mem u _ hmem
    exact ⟨i, hi, hg⟩
  · intro tid u h
    exact idxOf_of_nodup_get? _ (nodup_dedupFO _) tid u h

/-- Witness for C2: the two example uuids round-trip. -/
theorem uuid_trailid_roundtrip_witness :
    (∃ tid, Db.get_trail_id exDb [1] = some tid ∧ Db.get_uuid exDb tid = some [1]) ∧
    Db.get_trail_id exDb [2] = some 1 :=
  ⟨(uuid_trailid_roundtrip exFs exTs ⟨exFs, exTs, false⟩ ⟨exFs, exTs, true⟩
      exDb rfl rfl).1 [1] (by decide),
   (uuid_trailid_roundtrip exFs exTs ⟨exFs, exTs, false⟩ ⟨exFs, exTs, true⟩
      exDb rfl rfl).2 1 [2] (by decide)⟩

/-- C6: lookups for absent keys answer `none`, not an error value: an
unknown Uuid under `get_trail_id` and an out-of-range TrailId under
`get_uuid`. -/
theorem absent_lookup_is_none (db : Db) (u : Uuid) (tid : TrailId)
    (hu : u ∉ db.tuples.map Tup.uuid) (htid : db.num_trails ≤ tid) :
    db.get_trail_id u = none ∧ db.get_uuid tid = none := by
  constructor
  · exact idxOf_eq_none u _ (fun hm => hu ((mem_dedupFO u _).mp hm))
  · exact List.get?_eq_none.mpr htid

/-- Witness for C6 at a uuid that was never added and an out-of-range
trail id. -/
theorem absent_lookup_is_none_witness :
    Db.get_trail_id exDb [3] = none ∧ Db.get_uuid exDb 2 = none :=
  absent_lookup_is_none exDb [3] 2 (by decide) (by decide)

/-- C9: after a successful `finalize`, a further `Constructor::add` on
the same Constructor fails with `HandleAlreadyOpened` (no new state is
produced). -/
theorem add_after_finalize_fails (fs : List String) (ts : List Tup)
    (c c' : Cons) (db : Db) (u : Uuid) (t : Timestamp) (vs : List ByteStr)
    (h1 : runAdds (Cons.new fs) ts = .ok c)
    (h2 : c.finalize = .ok (c', db)) :
    c'.add u t vs = .error .HandleAlreadyOpened := by
  obtain ⟨-, hc', -⟩ := pipeline_shape fs ts c c' db h1 h2
  subst hc'
  rfl

/-- Witness for C9 on the example construction sequence. -/
theorem add_after_finalize_fails_witness :
    Cons.add ⟨exFs, exTs, true⟩ [7] 0 [] = .error .HandleAlreadyOpened :=
  add_after_finalize_fails exFs exTs ⟨exFs, exTs, false⟩ ⟨exFs, exTs, true⟩
    exDb [7] 0 [] rfl rfl

/-! ## Trail resolution lemmas -/

theorem trailEvents_eq_none (db : Db) (tid : TrailId)
    (h : db.num_trails ≤ tid) : db.trailEvents tid = none := by
  unfold Db.trailEvents
  rw [List.get?_eq_none.mpr h]
  rfl

theorem trailEvents_eq_some (db : Db) (tid : TrailId)
    (h : tid < db.num_trails) : ∃ evs, db.trailEvents tid = some evs := by
  unfold Db.trailEvents
  rw [List.get?_eq_get h]
  exact ⟨_, rfl⟩

/-- C7: binding a Cursor to a TrailId out of range fails with
`InvalidTrailId`, and the same Cursor can afterwards still be bound to
any valid TrailId, yielding that trail's events. -/
theorem invalid_trailid_bind (c : Cursor) (tid : TrailId)
    (h : c.db.num_trails ≤ tid) :
    c.get_trail tid = .error .InvalidTrailId ∧
    ∀ tid2, tid2 < c.db.num_trails →
      ∃ c2 evs, c.get_trail tid2 = .ok c2 ∧ c2.bound = some evs ∧
        c.db.trailEvents tid2 = some evs := by
  constructor
  · unfold Cursor.get_trail
    rw [trailEvents_eq_none c.db tid h]
  · intro tid2 h2
    obtain ⟨evs, hevs⟩ := trailEvents_eq_some c.db tid2 h2
    refine ⟨⟨c.db, some evs, 0⟩, evs, ?_, rfl, hevs⟩
    unfold Cursor.get_trail
    rw [hevs]

/-- Witness for C7: bind fails at TrailId 5 on the two-trail example
database and the same cursor then binds successfully to TrailId 0. -/
theorem invalid_trailid_bind_witness :
    Cursor.get_trail (Db.cursor exDb) 5 = .error .InvalidTrailId ∧
    (∃ c2 evs, Cursor.get_trail (Db.cursor exDb) 0 = .ok c2 ∧
      c2.bound = some evs ∧ Db.trailEvents exDb 0 = some evs) :=
  ⟨(invalid_trailid_bind (Db.cursor exDb) 5 (by decide)).1,
   (invalid_trailid_bind (Db.cursor exDb) 5 (by decide)).2 0 (by decide)⟩

/-! ## Cursor iteration lemmas -/

theorem runNext_drop (db : Db) (evs : List Event) :
    ∀ (n pos : Nat), evs.length - pos ≤ n →
      Cursor.runNext ⟨db, some evs, pos⟩ n = evs.drop pos := by
  intro n
  induction n with
  | zero =>
    intro pos h
    rw [Cursor.runNext]
    exact (List.drop_eq_nil_of_le (by omega)).symm
  | succ n ih =>
    intro pos h
    rw [Cursor.runNext]
    cases hg : evs.get? pos with
    | some ev =>
      simp only [Cursor.next, hg]
      rw [ih (pos + 1) (by omega)]
      obtain ⟨hlt, hget⟩ := List.get?_eq_some.mp hg
      rw [← hget]
      exact List.getElem_cons_drop evs pos hlt
    | none =>
      simp only [Cursor.next, hg]
      have : evs.length ≤ pos := List.get?_eq_none.mp hg
      exact (List.drop_eq_nil_of_le this).symm

/-- C4: after a successful bind, `Cursor::len` equals the number of
events that `next` yields before it first returns `none`, and rebinding
to the same TrailId from any cursor over the same Db resets the
position, yielding the same bound state (hence the same sequence). -/
theorem cursor_len_and_restart (c c2 : Cursor) (tid : TrailId)
    (h : c.get_trail tid = .ok c2) :
    (∀ n, c2.len ≤ n → (c2.runNext n).length = c2.len) ∧
    (∀ c3 : Cursor, c3.db = c.db → c3.get_trail tid = .ok c2) := by
  unfold Cursor.get_trail at h
  cases hevs : c.db.trailEvents tid with
  | none =>
    rw [hevs] at h
    cases h
  | some evs =>
    rw [hevs] at h
    injection h with h
    subst h
    constructor
    · intro n hn
      unfold Cursor.len at hn ⊢
      simp only [Option.getD_some] at hn ⊢
      rw [runNext_drop _ evs n 0 (by omega)]
      simp
    · intro c3 hdb
      unfold Cursor.get_trail
      rw [hdb, hevs]

/-- Witness for C4: trail 0 of the example database has 2 events, and a
cursor advanced to position 5 rebinds to the same initial state. -/
theorem cursor_len_and_restart_witness :
    (Cursor.runNext ⟨exDb, Db.trailEvents exDb 0, 0⟩ 2).length =
      Cursor.len ⟨exDb, Db.trailEvents exDb 0, 0⟩ ∧
    Cursor.get_trail ⟨exDb, Db.trailEvents exDb 0, 5⟩ 0 =
      .ok ⟨exDb, Db.trailEvents exDb 0, 0⟩ :=
  ⟨(cursor_len_and_restart (Db.cursor exDb) ⟨exDb, Db.trailEvents exDb 0, 0⟩
      0 rfl).1 2 (by decide),
   (cursor_len_and_restart (Db.cursor exDb) ⟨exDb, Db.trailEvents exDb 0, 0⟩
      0 rfl).2 ⟨exDb, Db.trailEvents exDb 0, 5⟩ rfl⟩

/-! ## Db iterator lemmas -/

theorem dbIterIds_range' (db : Db) :
    ∀ (n pos : Nat), db.num_trails - pos < n →
      dbIterIds db pos n = List.range' pos (db.num_trails - pos) := by
  intro n
  induction n with
  | zero => intro pos h; omega
  | succ n ih =>
    intro pos h
    rw [dbIterIds]
    by_cases hp : pos < db.num_trails
    · obtain ⟨evs, hevs⟩ := trailEvents_eq_some db pos hp
      simp only [dbIterNext, Cursor.get_trail, Db.cursor, hevs]
      rw [ih (pos + 1) (by omega)]
      have hk : db.num_trails - pos = (db.num_trails - (pos + 1)) + 1 := by omega
      rw [hk]
      rfl
    · have hnone : db.trailEvents pos = none :=
        trailEvents_eq_none db pos (by omega)
      simp only [dbIterNext, Cursor.get_trail, Db.cursor, hnone]
      have hk : db.num_trails - pos = 0 := by omega
      rw [hk]
      rfl

/-- C5: `Db::iter` yields trail ids exactly 0, 1, ..., num_trails - 1 in
increasing order, every id below num_trails resolves, and the iterator
answers `none` (absorbing the bind error) exactly at id num_trails. -/
theorem dbiter_yields_range (db : Db) :
    (∀ n, db.num_trails < n → dbIterIds db 0 n = List.range db.num_trails) ∧
    (∀ tid, tid < db.num_trails → (dbIterNext db tid).1.isSome = true) ∧
    (dbIterNext db db.num_trails).1 = none := by
  refine ⟨?_, ?_, ?_⟩
  · intro n h
    rw [dbIterIds_range' db n 0 (by omega), Nat.sub_zero, List.range_eq_range']
  · intro tid h
    obtain ⟨evs, hevs⟩ := trailEvents_eq_some db tid h
    simp only [dbIterNext, Cursor.get_trail, Db.cursor, hevs]
    rfl
  · simp only [dbIterNext, Cursor.get_trail, Db.cursor,
      trailEvents_eq_none db _ (Nat.le_refl _)]

/-- Witness for C5 on the example database (two trails). -/
theorem dbiter_yields_range_witness :
    dbIterIds exDb 0 3 = List.range (Db.num_trails exDb) ∧
    (dbIterNext exDb 0).1.isSome = true ∧
    (dbIterNext exDb (Db.num_trails exDb)).1 = none :=
  ⟨(dbiter_yields_range exDb).1 3 (by decide),
   (dbiter_yields_range exDb).2.1 0 (by decide),
   (dbiter_yields_range exDb).2.2⟩

/-! ## Lexicon round-trip lemmas -/

theorem getD_eq_of_get? (l : List α) (i : Nat) (a d : α)
    (h : l.get? i = some a) : l.getD i d = a := by
  rw [List.getD_eq_getElem?_getD, ← List.get?_eq_getElem?, h]
  rfl

theorem mem_lexiconF (ts : List Tup) (tp : Tup) (htp : tp ∈ ts)
    (j : Nat) (v : ByteStr) (hv : tp.vals.get? j = some v) :
    v ∈ lexiconF ts j := by
  unfold lexiconF
  rw [mem_dedupFO]
  exact List.mem_map.mpr ⟨tp, htp, getD_eq_of_get? _ _ _ _ hv⟩

theorem encodeItems_resolve (fs : List String) (ts : List Tup) :
    ∀ (vs : List ByteStr) (i : Nat),
      (∀ j v, vs.get? j = some v → v ∈ lexiconF ts (i + j)) →
      i + vs.length ≤ fs.length →
      (encodeItems ts i vs).map (Db.get_item_value ⟨fs, ts⟩) = vs := by
  intro vs
  induction vs with
  | nil => intro i _ _; rfl
  | cons v vs ih =>
    intro i hmem hlen
    rw [encodeItems, List.map_cons]
    have hv : v ∈ lexiconF ts i := by
      have h0 := hmem 0 v rfl
      rwa [Nat.add_zero] at h0
    obtain ⟨k, hk, hg⟩ := idxOf_mem v _ hv
    have hval : Db.get_item_value ⟨fs, ts⟩ ⟨i + 1, internId ts i v⟩ = v := by
      unfold Db.get_item_value resolveItem internId
      have hfield : ¬(i + 1 = 0 ∨ Db.num_fields ⟨fs, ts⟩ ≤ i + 1) := by
        unfold Db.num_fields
        simp only [List.length_cons] at hlen ⊢
        omega
      rw [if_neg hfield, hk]
      simp only [Option.getD_some, Nat.add_sub_cancel]
      rw [hg]
      rfl
    rw [hval]
    congr 1
    apply ih (i + 1)
    · intro j w hw
      have hm := hmem (j + 1) w (by simpa using hw)
      have harith : i + (j + 1) = i + 1 + j := by omega
      rwa [harith] at hm
    · simp only [List.length_cons] at hlen
      omega

/-- C3: for every Item obtained from an Event while iterating any trail
of a finalized Db, `get_item_value` returns exactly the byte string
originally supplied to `Constructor::add` for that field of that event
(each event's items resolve back to the values of its source tuple). -/
theorem item_value_roundtrip (fs : List String) (ts : List Tup)
    (c c' : Cons) (db : Db)
    (h1 : runAdds (Cons.new fs) ts = .ok c)
    (h2 : c.finalize = .ok (c', db))
    (harity : ∀ tp ∈ ts, tp.vals.length = fs.length) :
    ∀ tid evs, db.trailEvents tid = some evs →
      ∀ ev ∈ evs, ∃ tp, tp ∈ ts ∧ ev.timestamp = tp.ts ∧
        ev.items.map db.get_item_value = tp.vals := by
  obtain ⟨-, -, hdb⟩ := pipeline_shape fs ts c c' db h1 h2
  subst hdb
  intro tid evs hevs ev hev
  unfold Db.trailEvents at hevs
  cases hu : (uuidTable ⟨fs, ts⟩).get? tid with
  | none =>
    rw [hu] at hevs
    cases hevs
  | some u =>
    rw [hu] at hevs
    injection hevs with hevs
    subst hevs
    obtain ⟨tp, htp_mem, htp_eq⟩ := List.mem_map.mp hev
    have htp_ts : tp ∈ ts := List.mem_of_mem_filter htp_mem
    refine ⟨tp, htp_ts, ?_, ?_⟩
    · rw [← htp_eq]
      rfl
    · rw [← htp_eq]
      show (encodeItems ts 0 tp.vals).map (Db.get_item_value ⟨fs, ts⟩) = tp.vals
      apply encodeItems_resolve fs ts tp.vals 0
      · intro j v hv
        have := mem_lexiconF ts tp htp_ts j v hv
        rwa [Nat.zero_add]
      · rw [Nat.zero_add, harity tp htp_ts]

/-- The decoded events of trail 0 of the example database. -/
def exEvs0 : List Event :=
  (exTs.filter (fun t => t.uuid = [1])).map (encodeEvent exTs)

/-- Witness for C3: the first event of trail 0 of the example database
resolves back to its source tuple's values. -/
theorem item_value_roundtrip_witness :
    ∃ tp, tp ∈ exTs ∧ (encodeEvent exTs ⟨[1], 5, [[65], [66]]⟩).timestamp = tp.ts ∧
      (encodeEvent exTs ⟨[1], 5, [[65], [66]]⟩).items.map (Db.get_item_value exDb) =
        tp.vals :=
  item_value_roundtrip exFs exTs ⟨exFs, exTs, false⟩ ⟨exFs, exTs, true⟩ exDb
    rfl rfl (by decide) 0 exEvs0 rfl
    (encodeEvent exTs ⟨[1], 5, [[65], [66]]⟩) (by decide)

/-- C8 counterexample: the claim says `get_item_value` surfaces an
UnknownField/UnknownUuid-class error and never silently substitutes a
default; over the wrapper's actual `&str`-returning type this says an
unresolvable item never produces the substituted default (the empty
byte string).  Refuted at item (field 5, value 0) on the example
database, where the unresolvable item yields exactly the empty
string. -/
theorem get_item_value_never_default_false :
    ¬ (∀ it : Item, resolveItem exDb it = none →
        Db.get_item_value exDb it ≠ ([] : ByteStr)) := by
  intro h
  exact h ⟨5, 0⟩ (by decide) (by decide)

/-- C8 amended: `get_item_value` has no error channel; for an item that
does not resolve through the lexicon it silently substitutes the empty
string, and `get_field_name` answers `none` (not an error value) for an
out-of-range field. -/
theorem unknown_lookup_behavior :
    (∀ (db : Db) (it : Item), resolveItem db it = none →
      db.get_item_value it = ([] : ByteStr)) ∧
    (∀ (db : Db) (f : Nat), db.num_fields ≤ f → db.get_field_name f = none) := by
  constructor
  · intro db it h
    unfold Db.get_item_value
    rw [h]
    rfl
  · intro db f h
    unfold Db.num_fields at h
    unfold Db.get_field_name
    rw [if_neg (by omega)]
    exact List.get?_eq_none.mpr (by omega)

/-- Witness for the amended C8 at a concrete unknown item and field. -/
theorem unknown_lookup_behavior_witness :
    Db.get_item_value exDb ⟨4, 0⟩ = ([] : ByteStr) ∧
    Db.get_field_name exDb 3 = none :=
  ⟨unknown_lookup_behavior.1 exDb ⟨4, 0⟩ (by decide),
   unknown_lookup_behavior.2 exDb 3 (by decide)⟩

/-- C10: a path that is not valid UTF-8 (`to_str` returns `None`) or
whose UTF-8 bytes contain a NUL byte makes `Constructor::new` and
`Db::open` panic inside `path_cstr` (via `unwrap`), instead of
returning any `Err` value such as `PathTooLong`. -/
theorem bad_path_panics (p : Option (List Nat)) (fields : List String) (db : Db)
    (h : p = none ∨ ∃ s, p = some s ∧ 0 ∈ s) :
    (∃ m, constructorNewOp p fields = .panicked m) ∧
    (∃ m, dbOpenOp p db = .panicked m) ∧
    (∀ r, constructorNewOp p fields ≠ .ok r) ∧
    (∀ r, dbOpenOp p db ≠ .ok r) := by
  obtain ⟨m, hm⟩ : ∃ m, path_cstr p = .panicked m := by
    rcases h with h | ⟨s, hs, h0⟩
    · subst h
      exact ⟨_, rfl⟩
    · subst hs
      simp only [path_cstr, rustUnwrap, cStringNew]
      rw [if_pos h0]
      exact ⟨_, rfl⟩
  refine ⟨⟨m, ?_⟩, ⟨m, ?_⟩, ?_, ?_⟩
  · unfold constructorNewOp
    rw [hm]
  · unfold dbOpenOp
    rw [hm]
  · intro r heq
    unfold constructorNewOp at heq
    rw [hm] at heq
    cases heq
  · intro r heq
    unfold dbOpenOp at heq
    rw [hm] at heq
    cases heq

/-- Witness for C10 at the one-byte path consisting of a NUL byte. -/
theorem bad_path_panics_witness :
    (∃ m, constructorNewOp (some [0]) exFs = .panicked m) ∧
    (∃ m, dbOpenOp (some [0]) exDb = .panicked m) ∧
    (∀ r, constructorNewOp (some [0]) exFs ≠ .ok r) ∧
    (∀ r, dbOpenOp (some [0]) exDb ≠ .ok r) :=
  bad_path_panics (some [0]) exFs exDb (Or.inr ⟨[0], rfl, by decide⟩)
